import Mathlib

/-!
Verification of the list-based EditorBuffer (buffer.cpp, Chapter 13,
Exercise 7).  The linked list with a dummy head cell is modelled
abstractly: a buffer state is the character sequence, the cursor index
(number of characters to the left of the cursor cell, which is exactly
what getCursor computes), and the clipboard string.  The dummy cell's
uninitialized ch field, which moveCursorBackwardWord reads when the
cursor reaches the start cell, is modelled as an explicit parameter.
-/

/-- SPACE and NEWLINE are the two delimiters used throughout buffer.cpp. -/
def isWs (c : Char) : Bool := c == ' ' || c == '\n'

/-- Abstract state of EditorBuffer: list contents, cursor cell index,
and the private copyString clipboard. -/
structure EditorBuffer where
  text : List Char
  cursor : Nat
  copyString : List Char
deriving DecidableEq, Repr

/-- EditorBuffer::EditorBuffer(): dummy cell only, cursor at start,
copyString empty. -/
def emptyBuffer : EditorBuffer := ⟨[], 0, []⟩

/-- EditorBuffer::getText(): all characters, left to right. -/
def getText (b : EditorBuffer) : String := String.mk b.text

/-- EditorBuffer::getText(const Cell *startCell) called at the cursor
cell: the characters strictly to the right of the cursor. -/
def getTextFrom (b : EditorBuffer) : List Char := b.text.drop b.cursor

/-- EditorBuffer::getCursor(): number of cells from start to cursor. -/
def getCursor (b : EditorBuffer) : Nat := b.cursor

/-- EditorBuffer::moveCursorForward(): advance one cell unless
cursor->link is NULL (cursor at end). -/
def moveCursorForward (b : EditorBuffer) : EditorBuffer :=
  if b.cursor < b.text.length then { b with cursor := b.cursor + 1 } else b

/-- EditorBuffer::moveCursorBackward(): the pointer chase from start
finds the predecessor cell of the cursor; a no-op when cursor == start. -/
def moveCursorBackward (b : EditorBuffer) : EditorBuffer :=
  if b.cursor = 0 then b else { b with cursor := b.cursor - 1 }

/-- EditorBuffer::moveCursorToStart(). -/
def moveCursorToStart (b : EditorBuffer) : EditorBuffer :=
  { b with cursor := 0 }

/-- EditorBuffer::moveCursorToEnd(): follow link fields to the last cell. -/
def moveCursorToEnd (b : EditorBuffer) : EditorBuffer :=
  { b with cursor := b.text.length }

/-- A forward scanning loop of buffer.cpp:
while (cursor->link != NULL and p(cursor->link->ch)) moveCursorForward().
The first argument is the suffix of the text to the right of position i
(cursor->link onwards), kept in lockstep with the returned index. -/
def skipWhile (p : Char → Bool) : List Char → Nat → Nat
  | [], i => i
  | c :: rest, i => if p c then skipWhile p rest (i + 1) else i

/-- EditorBuffer::moveCursorForwardWord(): skip whitespace to the right
of the cursor, then skip the word to the right of the cursor. -/
def moveCursorForwardWord (b : EditorBuffer) : EditorBuffer :=
  let c1 := skipWhile isWs (b.text.drop b.cursor) b.cursor
  let c2 := skipWhile (fun c => !(isWs c)) (b.text.drop c1) c1
  { b with cursor := c2 }

/-- cursor->ch for the cell at index i: the dummy cell's (uninitialized)
character d when i = 0, otherwise the (i-1)-th buffer character. -/
def cellCh (d : Char) (text : List Char) (i : Nat) : Char :=
  if i = 0 then d else text.getD (i - 1) d

/-- A backward scanning loop of buffer.cpp:
while (cursor != NULL and p(cursor->ch)) moveCursorBackward().
cursor is never NULL, so the loop runs while p holds of cursor->ch;
the body is moveCursorBackward, a no-op at the start cell.  The loop
need not terminate, so it is given fuel and returns none on exhaustion. -/
def bwdWhile (p : Char → Bool) (d : Char) (text : List Char) :
    Nat → Nat → Option Nat
  | 0, _ => none
  | fuel + 1, i =>
    if p (cellCh d text i) then
      bwdWhile p d text fuel (if i = 0 then 0 else i - 1)
    else some i

/-- EditorBuffer::moveCursorBackwardWord(): scoot back through
whitespace, then back through the word; d is the dummy cell's
uninitialized character, read whenever the scan is at the start cell. -/
def moveCursorBackwardWord (fuel : Nat) (d : Char) (b : EditorBuffer) :
    Option EditorBuffer :=
  match bwdWhile isWs d b.text fuel b.cursor with
  | none => none
  | some c1 =>
    match bwdWhile (fun c => !(isWs c)) d b.text fuel c1 with
    | none => none
    | some c2 => some { b with cursor := c2 }

/-- EditorBuffer::insertCharacter(ch): new cell spliced in after the
cursor cell, cursor moved onto the new cell. -/
def insertCharacter (ch : Char) (b : EditorBuffer) : EditorBuffer :=
  { b with text := b.text.take b.cursor ++ ch :: b.text.drop b.cursor,
           cursor := b.cursor + 1 }

/-- The loop body of EditorBuffer::insertString: insertCharacter for
each character of the string in order. -/
def insertMany (cs : List Char) (b : EditorBuffer) : EditorBuffer :=
  cs.foldl (fun b c => insertCharacter c b) b

/-- EditorBuffer::insertString(str). -/
def insertString (s : String) (b : EditorBuffer) : EditorBuffer :=
  insertMany s.data b

/-- EditorBuffer::deleteCharacter(): unlink cursor->link if present. -/
def deleteCharacter (b : EditorBuffer) : EditorBuffer :=
  if b.cursor < b.text.length then
    { b with text := b.text.take b.cursor ++ b.text.drop (b.cursor + 1) }
  else b

/-- A deleting loop of buffer.cpp:
while (cursor->link != NULL and p(cursor->link->ch)) deleteCharacter().
It acts on the suffix to the right of the cursor; the prefix and the
cursor index are untouched. -/
def deleteWhile (p : Char → Bool) : List Char → List Char
  | [] => []
  | c :: rest => if p c then deleteWhile p rest else c :: rest

/-- EditorBuffer::deleteWord(): delete the whitespace run to the right
of the cursor, then the word to the right of the cursor. -/
def deleteWord (b : EditorBuffer) : EditorBuffer :=
  { b with text := b.text.take b.cursor ++
      deleteWhile (fun c => !(isWs c)) (deleteWhile isWs (b.text.drop b.cursor)) }

/-- EditorBuffer::copy(nChars): copyString = getText(cursor).substr(0, nChars).
substr takes a size_t, so the int argument is converted modulo 2^64;
substr(0, n) clamps n to the string length (List.take clamps likewise). -/
def copy (nChars : Int) (b : EditorBuffer) : EditorBuffer :=
  { b with copyString := (getTextFrom b).take ((nChars % (2 : Int) ^ 64).toNat) }

/-- The while (nWords > 0) loop of EditorBuffer::copyWords.  Each
iteration runs the two for loops: skip whitespace from i, then scan the
word from there; if i reached the end of the string the loop is forced
to exit, otherwise the scan stopped at a delimiter and nWords was
decremented.  nWords is only ever decremented, so the loop runs at most
nWords.toNat iterations; the Nat argument counts them. -/
def copyWordsAux (s : List Char) : Nat → Nat → Nat
  | 0, i => i
  | n + 1, i =>
    let i1 := skipWhile isWs (s.drop i) i
    let i2 := skipWhile (fun c => !(isWs c)) (s.drop i1) i1
    if i2 = s.length then i2 else copyWordsAux s n i2

/-- EditorBuffer::copyWords(nWords): copyString = charString.substr(0, i)
where i is where the word scan stopped and charString is the text to the
right of the cursor. -/
def copyWords (nWords : Int) (b : EditorBuffer) : EditorBuffer :=
  let charString := getTextFrom b
  { b with copyString := charString.take (copyWordsAux charString nWords.toNat 0) }

/-- EditorBuffer::paste(): insertString(copyString). -/
def paste (b : EditorBuffer) : EditorBuffer := insertMany b.copyString b

/-- The documented buffer invariant: the cursor index is a valid
position in [0, length]. -/
def inv (b : EditorBuffer) : Prop := getCursor b ≤ (getText b).length

instance (b : EditorBuffer) : Decidable (inv b) := by
  unfold inv; infer_instance

/-! Helper lemmas about the loop combinators. -/

theorem skipWhile_ge (p : Char → Bool) (s : List Char) (i : Nat) :
    i ≤ skipWhile p s i := by
  induction s generalizing i with
  | nil => simp [skipWhile]
  | cons c rest ih =>
    simp only [skipWhile]
    split
    · exact le_trans (Nat.le_succ i) (ih (i + 1))
    · exact le_refl i

theorem skipWhile_le (p : Char → Bool) (s : List Char) (i : Nat) :
    skipWhile p s i ≤ i + s.length := by
  induction s generalizing i with
  | nil => simp [skipWhile]
  | cons c rest ih =>
    simp only [skipWhile]
    split
    · have := ih (i + 1)
      simpa [Nat.add_comm, Nat.add_assoc, Nat.add_left_comm] using this
    · simp

theorem skipWhile_cons_true (p : Char → Bool) (c : Char) (rest : List Char)
    (i : Nat) (h : p c = true) :
    skipWhile p (c :: rest) i = skipWhile p rest (i + 1) := by
  simp [skipWhile, h]

theorem bwdWhile_le (p : Char → Bool) (d : Char) (t : List Char) :
    ∀ fuel i j, bwdWhile p d t fuel i = some j → j ≤ i := by
  intro fuel
  induction fuel with
  | zero => intro i j h; simp [bwdWhile] at h
  | succ n ih =>
    intro i j h
    simp only [bwdWhile] at h
    split at h
    · have hj := ih _ _ h
      split at hj <;> omega
    · simp at h; omega

theorem copyWordsAux_ge (s : List Char) :
    ∀ n i, i ≤ copyWordsAux s n i := by
  intro n
  induction n with
  | zero => intro i; simp [copyWordsAux]
  | succ m ih =>
    intro i
    simp only [copyWordsAux]
    have h1 := skipWhile_ge isWs (s.drop i) i
    have h2 := skipWhile_ge (fun c => !(isWs c))
      (s.drop (skipWhile isWs (s.drop i) i)) (skipWhile isWs (s.drop i) i)
    split
    · omega
    · have := ih (skipWhile (fun c => !(isWs c))
        (s.drop (skipWhile isWs (s.drop i) i)) (skipWhile isWs (s.drop i) i))
      omega

theorem take_append_cons (A : List Char) (c : Char) (B : List Char) :
    (A ++ c :: B).take (A.length + 1) = A ++ [c] := by
  induction A with
  | nil => simp
  | cons a A ih => simp [ih]

theorem drop_append_cons (A : List Char) (c : Char) (B : List Char) :
    (A ++ c :: B).drop (A.length + 1) = B := by
  induction A with
  | nil => simp
  | cons a A ih => simp [ih]

theorem insertMany_spec (cs : List Char) (b : EditorBuffer)
    (h : b.cursor ≤ b.text.length) :
    insertMany cs b =
      ⟨b.text.take b.cursor ++ cs ++ b.text.drop b.cursor,
       b.cursor + cs.length, b.copyString⟩ := by
  induction cs generalizing b with
  | nil =>
    cases b with
    | mk t c s => simp [insertMany]
  | cons c cs ih =>
    have hlen : (b.text.take b.cursor).length = b.cursor := by
      simp [List.length_take]; omega
    have hstep : insertMany (c :: cs) b = insertMany cs (insertCharacter c b) := by
      simp [insertMany]
    have hinv : (insertCharacter c b).cursor ≤ (insertCharacter c b).text.length := by
      simp [insertCharacter, List.length_take, List.length_drop]
      omega
    rw [hstep, ih _ hinv]
    simp only [insertCharacter]
    generalize hA : b.text.take b.cursor = A at hlen ⊢
    generalize hB : b.text.drop b.cursor = B
    rw [← hlen]
    simp [take_append_cons, drop_append_cons, EditorBuffer.mk.injEq]
    omega

theorem insertMany_copyString (cs : List Char) (b : EditorBuffer) :
    (insertMany cs b).copyString = b.copyString := by
  induction cs generalizing b with
  | nil => simp [insertMany]
  | cons c cs ih =>
    have hstep : insertMany (c :: cs) b = insertMany cs (insertCharacter c b) := by
      simp [insertMany]
    rw [hstep, ih]
    simp [insertCharacter]

theorem inv_iff (b : EditorBuffer) : inv b ↔ b.cursor ≤ b.text.length := by
  simp [inv, getCursor, getText, String.length]

theorem delete_after_insert (A B : List Char) (c : Char) (n : Nat)
    (h : A.length = n) :
    (A ++ c :: B).take n ++ (A ++ c :: B).drop (n + 1) = A ++ B := by
  subst h
  rw [List.take_left, drop_append_cons]

/-- If the dummy cell's character satisfies the loop predicate, the
backward loop spins at the start cell of the empty buffer forever: no
amount of fuel makes it return. -/
theorem bwdWhile_stuck (p : Char → Bool) (d : Char) (hp : p d = true) :
    ∀ n, bwdWhile p d [] n 0 = none := by
  intro n
  induction n with
  | zero => rfl
  | succ m ih => simp [bwdWhile, cellCh, hp, ih]

/-- C2: refuted as stated; the code diverges.  Both phase loops of
moveCursorBackwardWord guard on cursor != NULL, which never fails, so
neither loop treats start-of-buffer as a stopping condition.  On the
empty buffer (cursor at position 0, satisfying the invariant), the scan
is at the start cell, moveCursorBackward is a no-op there, and the
dummy cell's character satisfies one of the two phase predicates no
matter what it is: whichever phase it satisfies loops forever.  In fuel
semantics: for every dummy character and every fuel, the operation
fails to terminate. -/
theorem claim_C2 (d : Char) (fuel : Nat) :
    moveCursorBackwardWord fuel d emptyBuffer = none := by
  by_cases hw : isWs d = true
  · simp [moveCursorBackwardWord, emptyBuffer, bwdWhile_stuck isWs d hw fuel]
  · have hw2 : isWs d = false := by
      exact Bool.not_eq_true _ |>.mp hw
    have hnw : (fun c => !(isWs c)) d = true := by simp [hw2]
    cases fuel with
    | zero => rfl
    | succ m =>
      have h1 : bwdWhile isWs d [] (m + 1) 0 = some 0 := by
        simp [bwdWhile, cellCh, hw2]
      simp [moveCursorBackwardWord, emptyBuffer, h1,
        bwdWhile_stuck (fun c => !(isWs c)) d hnw (m + 1)]

/-- C3: for every finite sequence of insertCharacter calls on an
initially empty buffer, getText is the concatenation of the inserted
characters in call order and getCursor is the number inserted. -/
theorem claim_C3 (cs : List Char) :
    getText (insertMany cs emptyBuffer) = String.mk cs ∧
    getCursor (insertMany cs emptyBuffer) = cs.length := by
  rw [insertMany_spec cs emptyBuffer (by simp [emptyBuffer])]
  simp [getText, getCursor, emptyBuffer]

/-- C4: for every buffer state satisfying the cursor invariant and
every character c, insertCharacter(c); moveCursorBackward();
deleteCharacter() restores the pre-insert text exactly. -/
theorem claim_C4 (b : EditorBuffer) (c : Char) (h : inv b) :
    getText (deleteCharacter (moveCursorBackward (insertCharacter c b))) =
      getText b := by
  have hc : b.cursor ≤ b.text.length := (inv_iff b).mp h
  have hlen : (b.text.take b.cursor).length = b.cursor := by
    simp [List.length_take]; omega
  have e1 : moveCursorBackward (insertCharacter c b) =
      ⟨b.text.take b.cursor ++ c :: b.text.drop b.cursor, b.cursor,
       b.copyString⟩ := by
    simp [moveCursorBackward, insertCharacter]
  rw [e1]
  simp only [deleteCharacter]
  rw [if_pos (by simp [List.length_append]; omega)]
  simp only [getText]
  rw [delete_after_insert _ _ _ _ hlen, List.take_append_drop]

theorem claim_C4_witness :
    getText (deleteCharacter (moveCursorBackward
      (insertCharacter 'q' ⟨['x'], 1, []⟩))) = getText ⟨['x'], 1, []⟩ :=
  claim_C4 ⟨['x'], 1, []⟩ 'q' (by decide)

/-- C8: on "hello world" with the cursor at 0, moveCursorForwardWord
lands at 5, and a second call lands at 11 (end of buffer). -/
theorem claim_C8 :
    getCursor (moveCursorForwardWord ⟨"hello world".toList, 0, []⟩) = 5 ∧
    getCursor (moveCursorForwardWord
      (moveCursorForwardWord ⟨"hello world".toList, 0, []⟩)) = 11 := by
  decide

/-- C9: on "foo bar" with the cursor at 0, deleteWord removes "foo",
leaves the text " bar" (the space that followed the deleted word is
preserved), and the cursor index is unchanged at 0. -/
theorem claim_C9 :
    getText (deleteWord ⟨"foo bar".toList, 0, []⟩) = " bar" ∧
    getCursor (deleteWord ⟨"foo bar".toList, 0, []⟩) = 0 := by
  decide

theorem insertMany_inv (cs : List Char) (b : EditorBuffer)
    (h : b.cursor ≤ b.text.length) :
    (insertMany cs b).cursor ≤ (insertMany cs b).text.length := by
  rw [insertMany_spec cs b h]
  simp [List.length_append, List.length_take, List.length_drop]
  omega

/-- C5: the cursor invariant 0 <= getCursor <= length(getText) holds of
the constructed buffer (which also has cursor 0 and empty text) and is
preserved by every operation; for moveCursorBackwardWord, by every
terminating run.  The lower bound is inherent in the Nat cursor index. -/
theorem claim_C5 (b : EditorBuffer) (c : Char) (s : String) (n : Int)
    (fuel : Nat) (d : Char) (h : inv b) :
    inv emptyBuffer ∧ getCursor emptyBuffer = 0 ∧ getText emptyBuffer = "" ∧
    inv (moveCursorForward b) ∧
    inv (moveCursorBackward b) ∧
    inv (moveCursorForwardWord b) ∧
    (∀ b2, moveCursorBackwardWord fuel d b = some b2 → inv b2) ∧
    inv (moveCursorToStart b) ∧
    inv (moveCursorToEnd b) ∧
    inv (insertCharacter c b) ∧
    inv (insertString s b) ∧
    inv (deleteCharacter b) ∧
    inv (deleteWord b) ∧
    inv (copy n b) ∧
    inv (copyWords n b) ∧
    inv (paste b) := by
  have hc : b.cursor ≤ b.text.length := (inv_iff b).mp h
  simp only [inv_iff]
  refine ⟨by decide, rfl, rfl, ?_, ?_, ?_, ?_, ?_, ?_, ?_, ?_, ?_, ?_, ?_, ?_, ?_⟩
  · simp only [moveCursorForward]
    split <;> first | omega | (simp_all <;> omega)
  · simp only [moveCursorBackward]
    split <;> first | omega | (simp_all <;> omega)
  · have h1a := skipWhile_le isWs (b.text.drop b.cursor) b.cursor
    have h2a := skipWhile_le (fun x => !(isWs x))
      (b.text.drop (skipWhile isWs (b.text.drop b.cursor) b.cursor))
      (skipWhile isWs (b.text.drop b.cursor) b.cursor)
    simp only [List.length_drop] at h1a h2a
    simp [moveCursorForwardWord]
    omega
  · intro b2 hb2
    cases h1 : bwdWhile isWs d b.text fuel b.cursor with
    | none => simp [moveCursorBackwardWord, h1] at hb2
    | some c1 =>
      cases h2 : bwdWhile (fun x => !(isWs x)) d b.text fuel c1 with
      | none => simp [moveCursorBackwardWord, h1, h2] at hb2
      | some c2 =>
        have hle1 := bwdWhile_le isWs d b.text fuel b.cursor c1 h1
        have hle2 := bwdWhile_le (fun x => !(isWs x)) d b.text fuel c1 c2 h2
        simp [moveCursorBackwardWord, h1, h2] at hb2
        rw [← hb2]
        simp
        omega
  · simp [moveCursorToStart]
  · simp [moveCursorToEnd]
  · simp [insertCharacter, List.length_append, List.length_take, List.length_drop]
    omega
  · exact insertMany_inv s.data b hc
  · simp only [deleteCharacter]
    split <;> first
      | omega
      | (simp_all [List.length_append, List.length_take, List.length_drop] <;> omega)
  · simp [deleteWord, List.length_append, List.length_take]
    omega
  · simpa [copy] using hc
  · simpa [copyWords] using hc
  · exact insertMany_inv b.copyString b hc

theorem claim_C5_witness : inv (insertCharacter 'q' ⟨['x'], 1, []⟩) :=
  (claim_C5 ⟨['x'], 1, []⟩ 'q' "ab" 2 3 'z'
    (by decide)).2.2.2.2.2.2.2.2.2.1

/-- C6: for nChars in [0, 2^31) (the nonnegative int range), copy sets
the clipboard to the next min(nChars, remaining) characters to the right
of the cursor, clamping silently, and leaves text and cursor unchanged. -/
theorem claim_C6 (b : EditorBuffer) (nChars : Int) (h0 : 0 ≤ nChars)
    (h1 : nChars < 2 ^ 31) :
    (copy nChars b).copyString = (b.text.drop b.cursor).take nChars.toNat ∧
    ((copy nChars b).copyString).length =
      min nChars.toNat (b.text.drop b.cursor).length ∧
    getText (copy nChars b) = getText b ∧
    getCursor (copy nChars b) = getCursor b := by
  have h31 : (2 : Int) ^ 31 = 2147483648 := by norm_num
  rw [h31] at h1
  have hmod : nChars % 18446744073709551616 = nChars := by omega
  refine ⟨?_, ?_, rfl, rfl⟩
  · simp [copy, getTextFrom, hmod]
  · simp [copy, getTextFrom, hmod, List.length_take]

theorem claim_C6_witness :
    (copy 5 ⟨['a', 'b', 'c'], 1, []⟩).copyString = ['b', 'c'] ∧
    (copy 5 ⟨['a', 'b', 'c'], 1, []⟩).copyString.length = 2 ∧
    getText (copy 5 ⟨['a', 'b', 'c'], 1, []⟩) = getText ⟨['a', 'b', 'c'], 1, []⟩ ∧
    getCursor (copy 5 ⟨['a', 'b', 'c'], 1, []⟩) =
      getCursor ⟨['a', 'b', 'c'], 1, []⟩ := by
  have h := claim_C6 ⟨['a', 'b', 'c'], 1, []⟩ 5 (by decide) (by decide)
  refine ⟨?_, ?_, h.2.2.1, h.2.2.2⟩
  · rw [h.1]; decide
  · rw [h.2.1]; decide

/-- C7: paste never changes the clipboard, so paste is repeatable:
after copy(n), each paste inserts the clipboard at the cursor and
advances the cursor past it, and a second paste inserts the same text
again, doubling the inserted segment. -/
theorem claim_C7 (b : EditorBuffer) (n : Int) (h : inv b) :
    (paste (copy n b)).copyString = (copy n b).copyString ∧
    (paste (paste (copy n b))).copyString = (copy n b).copyString ∧
    getText (paste (copy n b)) =
      String.mk (b.text.take b.cursor ++ (copy n b).copyString ++
        b.text.drop b.cursor) ∧
    getCursor (paste (copy n b)) =
      b.cursor + (copy n b).copyString.length ∧
    getText (paste (paste (copy n b))) =
      String.mk (b.text.take b.cursor ++ (copy n b).copyString ++
        (copy n b).copyString ++ b.text.drop b.cursor) ∧
    getCursor (paste (paste (copy n b))) =
      b.cursor + 2 * (copy n b).copyString.length := by
  have hc : b.cursor ≤ b.text.length := (inv_iff b).mp h
  have hlenA : (b.text.take b.cursor).length = b.cursor := by
    simp [List.length_take]; omega
  set s := (copy n b).copyString with hs
  have h1 : paste (copy n b) =
      ⟨b.text.take b.cursor ++ s ++ b.text.drop b.cursor,
       b.cursor + s.length, s⟩ := by
    have hspec := insertMany_spec s (copy n b) hc
    simpa [paste, ← hs] using hspec
  have h2inv : b.cursor + s.length ≤
      (b.text.take b.cursor ++ s ++ b.text.drop b.cursor).length := by
    simp [List.length_append, List.length_take, List.length_drop]
    omega
  have h2 : paste (paste (copy n b)) =
      ⟨b.text.take b.cursor ++ s ++ s ++ b.text.drop b.cursor,
       b.cursor + 2 * s.length, s⟩ := by
    rw [h1]
    have hspec := insertMany_spec s
      ⟨b.text.take b.cursor ++ s ++ b.text.drop b.cursor,
       b.cursor + s.length, s⟩ h2inv
    rw [paste] at *
    rw [hspec]
    have htake : (b.text.take b.cursor ++ s ++ b.text.drop b.cursor).take
        (b.cursor + s.length) = b.text.take b.cursor ++ s :=
      List.take_left' (by simp [List.length_append, hlenA])
    have hdrop : (b.text.take b.cursor ++ s ++ b.text.drop b.cursor).drop
        (b.cursor + s.length) = b.text.drop b.cursor :=
      List.drop_left' (by simp [List.length_append, hlenA])
    rw [htake, hdrop]
    simp [List.append_assoc]
    omega
  refine ⟨?_, ?_, ?_, ?_, ?_, ?_⟩
  · rw [h1]
  · rw [h2]
  · rw [h1, getText]
  · rw [h1, getCursor]
  · rw [h2, getText]
  · rw [h2, getCursor]

theorem claim_C7_witness :
    (paste (copy 1 ⟨['a', 'b'], 0, []⟩)).copyString =
      (copy 1 ⟨['a', 'b'], 0, []⟩).copyString ∧
    (paste (paste (copy 1 ⟨['a', 'b'], 0, []⟩))).copyString =
      (copy 1 ⟨['a', 'b'], 0, []⟩).copyString ∧
    getText (paste (copy 1 ⟨['a', 'b'], 0, []⟩)) =
      String.mk ((⟨['a', 'b'], 0, []⟩ : EditorBuffer).text.take 0 ++
        (copy 1 ⟨['a', 'b'], 0, []⟩).copyString ++
        (⟨['a', 'b'], 0, []⟩ : EditorBuffer).text.drop 0) ∧
    getCursor (paste (copy 1 ⟨['a', 'b'], 0, []⟩)) =
      0 + (copy 1 ⟨['a', 'b'], 0, []⟩).copyString.length ∧
    getText (paste (paste (copy 1 ⟨['a', 'b'], 0, []⟩))) =
      String.mk ((⟨['a', 'b'], 0, []⟩ : EditorBuffer).text.take 0 ++
        (copy 1 ⟨['a', 'b'], 0, []⟩).copyString ++
        (copy 1 ⟨['a', 'b'], 0, []⟩).copyString ++
        (⟨['a', 'b'], 0, []⟩ : EditorBuffer).text.drop 0) ∧
    getCursor (paste (paste (copy 1 ⟨['a', 'b'], 0, []⟩))) =
      0 + 2 * (copy 1 ⟨['a', 'b'], 0, []⟩).copyString.length :=
  claim_C7 ⟨['a', 'b'], 0, []⟩ 1 (by decide)

/-- C10: for negative nChars (in the int range), copy converts the
signed count through size_t, which exceeds any remaining length, so the
clipboard receives the entire remaining text to the right of the
cursor, with no error; text and cursor are unchanged.  The buffer is
assumed smaller than 2^63 characters (any addressable buffer is). -/
theorem claim_C10 (b : EditorBuffer) (n : Int) (hneg : n < 0)
    (hrange : -(2 ^ 31) ≤ n) (hsize : (b.text.length : Int) < 2 ^ 63) :
    (copy n b).copyString = b.text.drop b.cursor ∧
    getText (copy n b) = getText b ∧
    getCursor (copy n b) = getCursor b := by
  have h64 : (2 : Int) ^ 64 = 18446744073709551616 := by norm_num
  have h31 : (2 : Int) ^ 31 = 2147483648 := by norm_num
  have h63 : (2 : Int) ^ 63 = 9223372036854775808 := by norm_num
  rw [h31] at hrange
  rw [h63] at hsize
  have hd : (b.text.drop b.cursor).length = b.text.length - b.cursor := by
    simp [List.length_drop]
  have hge : (b.text.drop b.cursor).length ≤ (n % (2 : Int) ^ 64).toNat := by
    rw [h64]
    omega
  refine ⟨?_, rfl, rfl⟩
  simp only [copy, getTextFrom]
  exact List.take_of_length_le hge

theorem claim_C10_witness :
    (copy (-1) ⟨['a', 'b'], 0, []⟩).copyString = ['a', 'b'] ∧
    getText (copy (-1) ⟨['a', 'b'], 0, []⟩) = getText ⟨['a', 'b'], 0, []⟩ ∧
    getCursor (copy (-1) ⟨['a', 'b'], 0, []⟩) = getCursor ⟨['a', 'b'], 0, []⟩ :=
  claim_C10 ⟨['a', 'b'], 0, []⟩ (-1) (by decide) (by decide) (by decide)

/-- When the character at the scan start is whitespace, at least one
position is consumed before the copyWords scan stops: the returned
index is positive, so substr(0, i) includes that whitespace. -/
theorem copyWordsAux_pos (c : Char) (tail0 : List Char) (n : Nat)
    (hc : isWs c = true) : 1 ≤ copyWordsAux (c :: tail0) (n + 1) 0 := by
  simp only [copyWordsAux, List.drop_zero]
  rw [skipWhile_cons_true isWs c tail0 0 hc]
  simp only [Nat.zero_add]
  have h1 : 1 ≤ skipWhile isWs tail0 1 := skipWhile_ge _ _ 1
  have h2 := skipWhile_ge (fun x => !(isWs x))
    ((c :: tail0).drop (skipWhile isWs tail0 1)) (skipWhile isWs tail0 1)
  split
  · omega
  · have h3 := copyWordsAux_ge (c :: tail0) n (skipWhile (fun x => !(isWs x))
      ((c :: tail0).drop (skipWhile isWs tail0 1)) (skipWhile isWs tail0 1))
    omega

/-- C1 counterexample: with the cursor at 0 inside the whitespace run
of " ab" (which precedes the word "ab"), copyWords(1) sets the
clipboard to " ab" — the copied text begins with the whitespace
character, contradicting the claim that the whitespace run is not part
of the copied text. -/
theorem claim_C1_counterexample :
    (copyWords 1 ⟨[' ', 'a', 'b'], 0, []⟩).copyString = [' ', 'a', 'b'] ∧
    isWs ' ' = true := by
  decide

/-- C1 amended: when the cursor sits inside a whitespace run
immediately preceding a word and nWords >= 1, copyWords sets the
clipboard to text that DOES begin with that whitespace: the phase-1
skip only positions the word-counting scan, while the captured text is
substr(0, i), which starts at the cursor and so includes the leading
whitespace run.  Formally the clipboard starts with the (whitespace)
character at the cursor. -/
theorem claim_C1 (b : EditorBuffer) (nWords : Int) (hn : 1 ≤ nWords)
    (hlt : b.cursor < b.text.length)
    (hws : isWs (b.text.getD b.cursor ' ') = true)
    (hword : ∃ j, b.cursor ≤ j ∧ j < b.text.length ∧
      isWs (b.text.getD j ' ') = false) :
    ∃ tl, (copyWords nWords b).copyString =
      b.text.getD b.cursor ' ' :: tl := by
  have hdrop : b.text.drop b.cursor =
      b.text.getD b.cursor ' ' :: b.text.drop (b.cursor + 1) := by
    rw [List.drop_eq_getElem_cons hlt]
    congr 1
    exact (List.getD_eq_getElem b.text ' ' hlt).symm
  obtain ⟨k, hk⟩ : ∃ k, nWords.toNat = k + 1 := ⟨nWords.toNat - 1, by omega⟩
  have hpos : 1 ≤ copyWordsAux
      (b.text.getD b.cursor ' ' :: b.text.drop (b.cursor + 1))
      nWords.toNat 0 := by
    rw [hk]
    exact copyWordsAux_pos _ _ k hws
  obtain ⟨m, hm⟩ : ∃ m, copyWordsAux
      (b.text.getD b.cursor ' ' :: b.text.drop (b.cursor + 1))
      nWords.toNat 0 = m + 1 :=
    ⟨copyWordsAux (b.text.getD b.cursor ' ' :: b.text.drop (b.cursor + 1))
      nWords.toNat 0 - 1, by omega⟩
  simp only [copyWords, getTextFrom]
  rw [hdrop, hm, List.take_succ_cons]
  exact ⟨_, rfl⟩

theorem claim_C1_witness :
    ∃ tl, (copyWords 1 ⟨[' ', 'a', 'b'], 0, []⟩).copyString =
      ([' ', 'a', 'b'] : List Char).getD 0 ' ' :: tl :=
  claim_C1 ⟨[' ', 'a', 'b'], 0, []⟩ 1 (by decide) (by decide) (by decide)
    ⟨1, by decide, by decide, by decide⟩
